import Mathlib

/-!
# Verification of the `cgl_pixel_utils` rasterization module

Shallow embedding of `src/py/cgl_pixel_utils.py` (CG-Lion pixel utilities):

* Python `int` is embedded as `ℤ`; Python `float` is embedded as `ℚ` with
  Python's `round` (round-half-to-even) made explicit.  All float inputs used
  in concrete evaluations below are exactly representable, and the spec-level
  laws are stated over this exact-arithmetic model.
* Python `list` is `List`, tuples are products.
* Fallible operations (`1.0 / w` raising `ZeroDivisionError`, `list.index`
  raising `ValueError`) are embedded with `Option`: `none` models the raised
  exception.
* `sorted(points, key=lambda x: x[1])` is a stable sort on the y-coordinate;
  for the three-element list it is unfolded here into `sort3`, the literal
  stable insertion sort (any two stable sorts of the same list agree).
-/

/-- `n` consecutive integers counting up from `a`. -/
def intRangeUp : ℕ → ℤ → List ℤ
  | 0, _ => []
  | n + 1, a => a :: intRangeUp n (a + 1)

/-- `n` consecutive integers counting down from `a`. -/
def intRangeDown : ℕ → ℤ → List ℤ
  | 0, _ => []
  | n + 1, a => a :: intRangeDown n (a - 1)

/-- Python `list(range(a, b))`: the integers `a, a+1, …, b-1` (empty when
`b ≤ a`). -/
def pyRangeAsc (a b : ℤ) : List ℤ := intRangeUp (b - a).toNat a

/-- Python `list(range(a, b, -1))`: the integers `a, a-1, …, b+1` (empty when
`a ≤ b`). -/
def pyRangeDesc (a b : ℤ) : List ℤ := intRangeDown (a - b).toNat a

/-- Embedding of `cgl_fill_int_range(begin, end, ends=True)`: all integers in
the range `begin – end` regardless of direction; `ends` selects whether the two
endpoints are included.  (`int(ends)` is `1` when the flag is set, else `0`.) -/
def cgl_fill_int_range (begin_ end_ : ℤ) (ends : Bool) : List ℤ :=
  let endi : ℤ := if ends then 1 else 0
  if end_ > begin_ then pyRangeAsc (begin_ + (1 - endi)) (end_ + endi)
  else if end_ < begin_ then pyRangeDesc (begin_ - (1 - endi)) (end_ - endi)
  else []

/-- Embedding of `cgl_det(p0, p1, p2)`: the 3×3 homogeneous determinant. -/
def cgl_det (p0 p1 p2 : ℤ × ℤ) : ℤ :=
  p0.1 * p1.2 + p0.2 * p2.1 + p1.1 * p2.2 - p0.1 * p2.2 - p0.2 * p1.1 - p1.2 * p2.1

/-- Python's built-in `round` on our exact-rational model of `float`:
round to the nearest integer, ties to the even integer. -/
def round_half_even (q : ℚ) : ℤ :=
  let f : ℤ := ⌊q⌋
  let r : ℚ := q - (f : ℚ)
  if r < 1/2 then f
  else if 1/2 < r then f + 1
  else if f % 2 = 0 then f else f + 1

/-- Embedding of `cgl_get_pixel_from_uv(u, v, w, h)`: clamp `u, v` to
`[0, 1]`, then `round(u * (w - 1)), round(v * (h - 1))`.  The source performs
no validation of `w, h` and never fails. -/
def cgl_get_pixel_from_uv (u v : ℚ) (w h : ℤ) : ℤ × ℤ :=
  let u' := max (min u 1) 0
  let v' := max (min v 1) 0
  (round_half_even (u' * ((w : ℚ) - 1)), round_half_even (v' * ((h : ℚ) - 1)))

/-- Embedding of `cgl_get_pixel_uv(x, y, w, h)`: the UV coordinates of the
center of pixel `(x, y)` after clamping into the grid.  `1.0 / w` (then
`1.0 / h`) raises `ZeroDivisionError` exactly when the dimension is zero, which
is modelled by `none`; any other dimension, including negative ones, silently
produces a value, as in the source. -/
def cgl_get_pixel_uv (x y w h : ℤ) : Option (ℚ × ℚ) :=
  if w = 0 then none
  else if h = 0 then none
  else
    let pu : ℚ := 1 / (w : ℚ)
    let pv : ℚ := 1 / (h : ℚ)
    let x' := max (min x (w - 1)) 0
    let y' := max (min y (h - 1)) 0
    some (((x' : ℚ)) * pu + pu * (1/2 : ℚ), ((y' : ℚ)) * pv + pv * (1/2 : ℚ))

/-- One pass of the Bresenham loop body of `cgl_line_raster_pixels` acting on
the pair (secondary-axis value `sec`, error term `di`): if `di > 0` the
secondary value advances by `inc` and `di` drops by `2·d[mx]`; afterwards `di`
always gains `2·d[1-mx]`. -/
def bstep (inc dmaj dsec : ℤ) (x : ℤ × ℤ) : ℤ × ℤ :=
  (if 0 < x.2 then x.1 + inc else x.1,
   (if 0 < x.2 then x.2 - 2 * dmaj else x.2) + 2 * dsec)

/-- The main loop of `cgl_line_raster_pixels`, iterating the major-axis
coordinate: emits `n` points `(m, sec)` in major/secondary order, advancing
`m` by `mstep` each step and `(sec, di)` by `bstep`. -/
def bres_loop (n : ℕ) (m mstep sec inc di dmaj dsec : ℤ) : List (ℤ × ℤ) :=
  match n with
  | 0 => []
  | n + 1 =>
    (m, sec) ::
      bres_loop n (m + mstep) mstep
        (if 0 < di then sec + inc else sec) inc
        ((if 0 < di then di - 2 * dmaj else di) + 2 * dsec) dmaj dsec

/-- The whole Bresenham run of `cgl_line_raster_pixels` in major/secondary
coordinates: major axis from `m0` towards `m1` (`a = |m1 - m0|` steps plus the
start), secondary axis starting at `sec0` with signed secondary delta `ds`
(`inc = ±1` by the sign of `ds`, initial error `2·|ds| - a`). -/
def bres_run (m0 m1 sec0 ds : ℤ) (a : ℕ) : List (ℤ × ℤ) :=
  bres_loop (a + 1) m0 (if m0 < m1 then 1 else -1) sec0
    (if 0 ≤ ds then 1 else -1)
    (2 * (ds.natAbs : ℤ) - (a : ℤ)) (a : ℤ) (ds.natAbs : ℤ)

/-- Embedding of `cgl_line_raster_pixels(p0, p1)` (generalized Bresenham):
the major axis `mx` is x when `|dx| > |dy|` and y otherwise; points are
emitted as `(m, sec)` when x is major and `(sec, m)` when y is major
(the list `lnpx = [(m, sec), (sec, m)]` indexed by `mx` in the source). -/
def cgl_line_raster_pixels (p0 p1 : ℤ × ℤ) : List (ℤ × ℤ) :=
  if (p1.1 - p0.1).natAbs > (p1.2 - p0.2).natAbs then
    bres_run p0.1 p1.1 p0.2 (p1.2 - p0.2) (p1.1 - p0.1).natAbs
  else
    (bres_run p0.2 p1.2 p0.1 (p1.1 - p0.1) (p1.2 - p0.2).natAbs).map
      (fun q => (q.2, q.1))

/-- Embedding of `cgl_get_triangle_lines_raster_pixels(p0, p1, p2)`: the loop
`for i in range(3): tri_px += cgl_line_raster_pixels(points[i],
points[(i+1) % 3])[1:]` — note the `[1:]` applies to all three edges.
(`points[i]` is always in bounds, so the `getD` default is never used.) -/
def cgl_get_triangle_lines_raster_pixels (p0 p1 p2 : ℤ × ℤ) : List (ℤ × ℤ) :=
  let points := [p0, p1, p2]
  (List.range 3).foldl
    (fun acc i =>
      acc ++ (cgl_line_raster_pixels (points.getD i p0)
        (points.getD ((i + 1) % 3) p0)).drop 1) []

/-- Stable sort of the three vertices by ascending y: the unfolding of
`sorted([p0, p1, p2], key=lambda x: x[1])` (a stable sort; this is the literal
stable insertion sort of the three elements, which agrees with it). -/
def sort3 (p0 p1 p2 : ℤ × ℤ) : (ℤ × ℤ) × (ℤ × ℤ) × (ℤ × ℤ) :=
  if p1.2 ≤ p2.2 then
    if p0.2 ≤ p1.2 then (p0, p1, p2)
    else if p0.2 ≤ p2.2 then (p1, p0, p2)
    else (p1, p2, p0)
  else
    if p0.2 ≤ p2.2 then (p0, p2, p1)
    else if p0.2 ≤ p1.2 then (p2, p0, p1)
    else (p2, p1, p0)

/-- The scan-fill loop of `cgl_get_triangle_raster_pixels`, iterating over the
interior samples of `line_a` (the Python loop over indices `1 … len-2`,
here over the corresponding elements) while carrying `y_val`.  On a row with a
new y value it looks up the matching point of `line_b` (while the row is at or
below `line_b`'s last y) or `line_c`, and appends the inclusive horizontal
range between the two x values paired with the row's y.  `line_b[-1]` on an
empty list and a failed `.index` lookup (ValueError) are modelled by `none`. -/
def fill_rows (line_b line_c : List (ℤ × ℤ)) : ℤ → List (ℤ × ℤ) → Option (List (ℤ × ℤ))
  | _, [] => some []
  | y_val, q :: rest =>
    if q.2 = y_val then fill_rows line_b line_c y_val rest
    else
      line_b.getLast?.bind (fun lb =>
        (((if q.2 ≤ lb.2 then line_b else line_c).find? (fun r => r.2 == q.2)).bind (fun r =>
          (fill_rows line_b line_c q.2 rest).map (fun tail =>
            (cgl_fill_int_range q.1 r.1 true).map (fun xv => (xv, q.2)) ++ tail))))

/-- Embedding of `cgl_get_triangle_raster_pixels(p0, p1, p2, lines=True)`:
sort the vertices by ascending y, rasterize the long edge `line_a` and the two
short edges `line_b`, `line_c`, scan-fill the interior rows of `line_a`, and
when `lines` is set append `line_a[:-1] + line_b[1:] + line_c[1:]`.
`line_a` is never empty (a Bresenham run always emits at least one point), so
`line_a.headI` faithfully renders the source's `line_a[0]`. -/
def cgl_get_triangle_raster_pixels (p0 p1 p2 : ℤ × ℤ) (lines : Bool) :
    Option (List (ℤ × ℤ)) :=
  let s := sort3 p0 p1 p2
  let line_a := cgl_line_raster_pixels s.1 s.2.2
  let line_b := cgl_line_raster_pixels s.1 s.2.1
  let line_c := cgl_line_raster_pixels s.2.1 s.2.2
  (fill_rows line_b line_c line_a.headI.2 ((line_a.drop 1).dropLast)).map
    (fun tri_fill =>
      if lines then tri_fill ++ line_a.dropLast ++ line_b.drop 1 ++ line_c.drop 1
      else tri_fill)

/-! ## Range filler lemmas -/

theorem mem_intRangeUp {z : ℤ} : ∀ (n : ℕ) (a : ℤ),
    z ∈ intRangeUp n a ↔ a ≤ z ∧ z < a + n := by
  intro n
  induction n with
  | zero => intro a; rw [intRangeUp]; simp
  | succ k ih => intro a; rw [intRangeUp, List.mem_cons, ih]; push_cast; omega

theorem mem_intRangeDown {z : ℤ} : ∀ (n : ℕ) (a : ℤ),
    z ∈ intRangeDown n a ↔ a - n < z ∧ z ≤ a := by
  intro n
  induction n with
  | zero => intro a; rw [intRangeDown]; simp
  | succ k ih => intro a; rw [intRangeDown, List.mem_cons, ih]; push_cast; omega

theorem mem_pyRangeAsc {a b z : ℤ} : z ∈ pyRangeAsc a b ↔ a ≤ z ∧ z < b := by
  rw [pyRangeAsc, mem_intRangeUp]
  omega

theorem mem_pyRangeDesc {a b z : ℤ} : z ∈ pyRangeDesc a b ↔ b < z ∧ z ≤ a := by
  rw [pyRangeDesc, mem_intRangeDown]
  omega

theorem fill_int_range_true_eq (b e : ℤ) :
    cgl_fill_int_range b e true =
      if e > b then pyRangeAsc b (e + 1)
      else if e < b then pyRangeDesc b (e - 1) else [] := by
  simp [cgl_fill_int_range]

theorem fill_int_range_false_eq (b e : ℤ) :
    cgl_fill_int_range b e false =
      if e > b then pyRangeAsc (b + 1) e
      else if e < b then pyRangeDesc (b - 1) e else [] := by
  simp [cgl_fill_int_range]

theorem mem_fill_int_range_true {b e z : ℤ} :
    z ∈ cgl_fill_int_range b e true ↔ b ≠ e ∧ min b e ≤ z ∧ z ≤ max b e := by
  rw [fill_int_range_true_eq]
  split_ifs with h1 h2
  · rw [mem_pyRangeAsc]; omega
  · rw [mem_pyRangeDesc]; omega
  · simp only [List.not_mem_nil, false_iff]; omega

theorem mem_fill_int_range_false {b e z : ℤ} :
    z ∈ cgl_fill_int_range b e false ↔ min b e < z ∧ z < max b e := by
  rw [fill_int_range_false_eq]
  split_ifs with h1 h2
  · rw [mem_pyRangeAsc]; omega
  · rw [mem_pyRangeDesc]; omega
  · simp only [List.not_mem_nil, false_iff]; omega

theorem fill_int_range_between {b e z : ℤ} (ends : Bool)
    (h : z ∈ cgl_fill_int_range b e ends) : min b e ≤ z ∧ z ≤ max b e := by
  cases ends
  · rw [mem_fill_int_range_false] at h; omega
  · rw [mem_fill_int_range_true] at h; omega

theorem head?_intRangeUp (n : ℕ) (a : ℤ) :
    (intRangeUp (n + 1) a).head? = some a := by
  rw [intRangeUp]; rfl

theorem head?_intRangeDown (n : ℕ) (a : ℤ) :
    (intRangeDown (n + 1) a).head? = some a := by
  rw [intRangeDown]; rfl

theorem chain'_intRangeUp : ∀ (n : ℕ) (a : ℤ),
    List.Chain' (· < ·) (intRangeUp n a) := by
  intro n
  induction n with
  | zero => intro a; rw [intRangeUp]; exact List.chain'_nil
  | succ k ih =>
    intro a
    rw [intRangeUp]
    refine List.chain'_cons'.mpr ⟨?_, ih (a + 1)⟩
    intro y hy
    rcases k with _ | k
    · rw [intRangeUp] at hy; simp at hy
    · rw [head?_intRangeUp] at hy
      simp only [Option.mem_def, Option.some.injEq] at hy
      omega

theorem chain'_intRangeDown : ∀ (n : ℕ) (a : ℤ),
    List.Chain' (fun u v : ℤ => v < u) (intRangeDown n a) := by
  intro n
  induction n with
  | zero => intro a; rw [intRangeDown]; exact List.chain'_nil
  | succ k ih =>
    intro a
    rw [intRangeDown]
    refine List.chain'_cons'.mpr ⟨?_, ih (a - 1)⟩
    intro y hy
    rcases k with _ | k
    · rw [intRangeDown] at hy; simp at hy
    · rw [head?_intRangeDown] at hy
      simp only [Option.mem_def, Option.some.injEq] at hy
      omega

theorem chain'_lt_pyRangeAsc (a b : ℤ) : List.Chain' (· < ·) (pyRangeAsc a b) :=
  chain'_intRangeUp _ _

theorem chain'_gt_pyRangeDesc (a b : ℤ) :
    List.Chain' (fun u v : ℤ => v < u) (pyRangeDesc a b) :=
  chain'_intRangeDown _ _

theorem fill_int_range_eq_of_eq (b : ℤ) (ends : Bool) :
    cgl_fill_int_range b b ends = [] := by
  simp [cgl_fill_int_range]

theorem fill_int_range_chain_asc {b e : ℤ} (h : b < e) (ends : Bool) :
    List.Chain' (· < ·) (cgl_fill_int_range b e ends) := by
  rw [cgl_fill_int_range, if_pos h]
  exact chain'_lt_pyRangeAsc _ _

theorem fill_int_range_chain_desc {b e : ℤ} (h : e < b) (ends : Bool) :
    List.Chain' (fun u v : ℤ => v < u) (cgl_fill_int_range b e ends) := by
  rw [cgl_fill_int_range, if_neg (by omega), if_pos h]
  exact chain'_gt_pyRangeDesc _ _

/-! ## Rounding lemmas -/

theorem round_half_even_eq_of_close {n : ℤ} {q : ℚ} (h1 : (n : ℚ) - 1/2 < q)
    (h2 : q < (n : ℚ) + 1/2) : round_half_even q = n := by
  have hfl : (⌊q⌋ : ℚ) ≤ q := Int.floor_le q
  have hfu : q < (⌊q⌋ : ℚ) + 1 := Int.lt_floor_add_one q
  have hcases : ⌊q⌋ = n ∨ ⌊q⌋ = n - 1 := by
    have i1 : ((⌊q⌋ : ℤ) : ℚ) < (n : ℚ) + 1 := by linarith
    have i2 : ((n : ℚ) - 2) < ((⌊q⌋ : ℤ) : ℚ) := by linarith
    have j1 : ⌊q⌋ < n + 1 := by exact_mod_cast i1
    have j2 : n - 2 < ⌊q⌋ := by exact_mod_cast i2
    omega
  simp only [round_half_even]
  split_ifs with ha hb hc
  · rcases hcases with hf | hf
    · exact hf
    · exfalso; rw [hf] at ha; push_cast at ha; linarith
  · rcases hcases with hf | hf
    · exfalso; rw [hf] at hb; linarith
    · omega
  · exfalso
    have ha' : (1/2 : ℚ) ≤ q - ((⌊q⌋ : ℤ) : ℚ) := not_lt.mp ha
    have hb' : q - ((⌊q⌋ : ℤ) : ℚ) ≤ 1/2 := not_lt.mp hb
    rcases hcases with hf | hf <;> rw [hf] at ha' hb' <;> push_cast at ha' hb' <;>
      linarith
  · exfalso
    have ha' : (1/2 : ℚ) ≤ q - ((⌊q⌋ : ℤ) : ℚ) := not_lt.mp ha
    have hb' : q - ((⌊q⌋ : ℤ) : ℚ) ≤ 1/2 := not_lt.mp hb
    rcases hcases with hf | hf <;> rw [hf] at ha' hb' <;> push_cast at ha' hb' <;>
      linarith

/-! ## Bresenham loop: basic shape lemmas -/

theorem bres_loop_succ (n : ℕ) (m mstep sec inc di dmaj dsec : ℤ) :
    bres_loop (n + 1) m mstep sec inc di dmaj dsec =
      (m, sec) ::
        bres_loop n (m + mstep) mstep (bstep inc dmaj dsec (sec, di)).1 inc
          (bstep inc dmaj dsec (sec, di)).2 dmaj dsec := rfl

theorem bres_loop_length : ∀ (n : ℕ) (m mstep sec inc di dmaj dsec : ℤ),
    (bres_loop n m mstep sec inc di dmaj dsec).length = n := by
  intro n
  induction n with
  | zero => intro m mstep sec inc di dmaj dsec; rfl
  | succ k ih =>
    intro m mstep sec inc di dmaj dsec
    rw [bres_loop_succ, List.length_cons, ih]

theorem bres_loop_getElem? : ∀ (n k : ℕ), k < n →
    ∀ (m mstep sec inc di dmaj dsec : ℤ),
    (bres_loop n m mstep sec inc di dmaj dsec)[k]? =
      some (m + mstep * k, ((bstep inc dmaj dsec)^[k] (sec, di)).1) := by
  intro n
  induction n with
  | zero => intro k hk; omega
  | succ nn ih =>
    intro k hk m mstep sec inc di dmaj dsec
    rcases k with _ | kk
    · rw [bres_loop_succ, List.getElem?_cons_zero]
      simp
    · rw [bres_loop_succ, List.getElem?_cons_succ, ih kk (by omega)]
      have harith : m + mstep + mstep * (kk : ℤ) = m + mstep * ((kk : ℤ) + 1) := by ring
      have hiter :
          (bstep inc dmaj dsec)^[kk] (bstep inc dmaj dsec (sec, di)) =
            (bstep inc dmaj dsec)^[kk + 1] (sec, di) :=
        (Function.iterate_succ_apply (bstep inc dmaj dsec) kk (sec, di)).symm
      rw [hiter]
      push_cast
      rw [harith]

theorem bres_loop_head? (n : ℕ) (m mstep sec inc di dmaj dsec : ℤ) :
    (bres_loop (n + 1) m mstep sec inc di dmaj dsec).head? = some (m, sec) := by
  rw [bres_loop_succ]
  rfl

theorem bres_loop_getLast? (n : ℕ) (m mstep sec inc di dmaj dsec : ℤ) :
    (bres_loop (n + 1) m mstep sec inc di dmaj dsec).getLast? =
      some (m + mstep * n, ((bstep inc dmaj dsec)^[n] (sec, di)).1) := by
  rw [List.getLast?_eq_getElem?, bres_loop_length]
  exact bres_loop_getElem? (n + 1) n (by omega) m mstep sec inc di dmaj dsec

theorem bres_loop_mem {q : ℤ × ℤ} {n : ℕ} {m mstep sec inc di dmaj dsec : ℤ}
    (h : q ∈ bres_loop n m mstep sec inc di dmaj dsec) :
    ∃ k : ℕ, k < n ∧ q = (m + mstep * k, ((bstep inc dmaj dsec)^[k] (sec, di)).1) := by
  rw [List.mem_iff_getElem?] at h
  obtain ⟨k, hk⟩ := h
  have hkn : k < n := by
    by_contra hge
    rw [List.getElem?_eq_none] at hk
    · exact Option.noConfusion hk
    · rw [bres_loop_length]; omega
  refine ⟨k, hkn, ?_⟩
  rw [bres_loop_getElem? n k hkn] at hk
  exact (Option.some.injEq _ _ ▸ hk).symm

theorem bres_loop_chain' : ∀ (n : ℕ) (m mstep sec inc di dmaj dsec : ℤ),
    List.Chain' (fun q r : ℤ × ℤ => r.1 = q.1 + mstep ∧ (r.2 = q.2 ∨ r.2 = q.2 + inc))
      (bres_loop n m mstep sec inc di dmaj dsec) := by
  intro n
  induction n with
  | zero => intro m mstep sec inc di dmaj dsec; exact List.chain'_nil
  | succ k ih =>
    intro m mstep sec inc di dmaj dsec
    rw [bres_loop_succ]
    refine List.chain'_cons'.mpr ⟨?_, ih _ _ _ _ _ _ _⟩
    intro y hy
    rcases k with _ | kk
    · rw [show bres_loop 0 (m + mstep) mstep (bstep inc dmaj dsec (sec, di)).1 inc
          (bstep inc dmaj dsec (sec, di)).2 dmaj dsec = [] from rfl] at hy
      simp at hy
    · rw [bres_loop_head?] at hy
      simp only [Option.mem_def, Option.some.injEq] at hy
      subst hy
      refine ⟨rfl, ?_⟩
      rw [bstep]
      by_cases hdi : 0 < di
      · right; rw [if_pos hdi]
      · left; rw [if_neg hdi]

/-! ## Bresenham loop: error-term window invariant

The secondary-axis value after `n` updates is `sec + inc * s` where `s` is the
number of increments performed; the invariant `2·dsec - 2·dmaj < di ≤ 2·dsec`
on the error term pins `s` to an exact window. -/

theorem bstep_iterate_window (inc : ℤ) {dmaj dsec : ℤ} (hd : 0 ≤ dsec) (hm : dsec ≤ dmaj) :
    ∀ (n : ℕ) (sec di : ℤ), 2 * dsec - 2 * dmaj < di → di ≤ 2 * dsec →
    ∃ s : ℤ, 0 ≤ s ∧
      (bstep inc dmaj dsec)^[n] (sec, di) =
        (sec + inc * s, di + 2 * dsec * n - 2 * dmaj * s) ∧
      2 * dsec - 2 * dmaj < di + 2 * dsec * n - 2 * dmaj * s ∧
      di + 2 * dsec * n - 2 * dmaj * s ≤ 2 * dsec := by
  intro n
  induction n with
  | zero =>
    intro sec di h1 h2
    refine ⟨0, le_refl 0, by simp, by push_cast; linarith, by push_cast; linarith⟩
  | succ k ih =>
    intro sec di h1 h2
    set c0 : ℤ := if 0 < di then 1 else 0 with hc0
    have hc0nn : 0 ≤ c0 := by rw [hc0]; split_ifs <;> norm_num
    have hstep : bstep inc dmaj dsec (sec, di) =
        (sec + inc * c0, di + 2 * dsec - 2 * dmaj * c0) := by
      by_cases h : 0 < di
      · simp only [bstep, hc0, if_pos h, Prod.mk.injEq]
        constructor <;> ring
      · simp only [bstep, hc0, if_neg h, Prod.mk.injEq]
        constructor <;> ring
    have h1' : 2 * dsec - 2 * dmaj < di + 2 * dsec - 2 * dmaj * c0 := by
      by_cases h : 0 < di
      · rw [hc0, if_pos h]; linarith
      · rw [hc0, if_neg h]; linarith
    have h2' : di + 2 * dsec - 2 * dmaj * c0 ≤ 2 * dsec := by
      by_cases h : 0 < di
      · rw [hc0, if_pos h]; linarith
      · rw [hc0, if_neg h]; push_neg at h; linarith
    obtain ⟨s', hs0, hit, hw1, hw2⟩ := ih (sec + inc * c0) (di + 2 * dsec - 2 * dmaj * c0) h1' h2'
    refine ⟨c0 + s', by linarith, ?_, ?_, ?_⟩
    · rw [Function.iterate_succ_apply, hstep, hit]
      simp only [Prod.mk.injEq]
      constructor <;> push_cast <;> ring
    · have heq : di + 2 * dsec * ((k : ℤ) + 1) - 2 * dmaj * (c0 + s') =
          (di + 2 * dsec - 2 * dmaj * c0) + 2 * dsec * (k : ℤ) - 2 * dmaj * s' := by ring
      push_cast
      rw [heq]
      exact hw1
    · have heq : di + 2 * dsec * ((k : ℤ) + 1) - 2 * dmaj * (c0 + s') =
          (di + 2 * dsec - 2 * dmaj * c0) + 2 * dsec * (k : ℤ) - 2 * dmaj * s' := by ring
      push_cast
      rw [heq]
      exact hw2

theorem bstep_iterate_bounds (inc dmaj dsec : ℤ) (hd : 0 ≤ dsec) (hm : dsec ≤ dmaj)
    (hpos : 0 < dmaj) (sec : ℤ) (k : ℕ) (hk : (k : ℤ) ≤ dmaj) :
    ∃ s : ℤ, 0 ≤ s ∧ s ≤ dsec ∧
      ((bstep inc dmaj dsec)^[k] (sec, 2 * dsec - dmaj)).1 = sec + inc * s := by
  obtain ⟨s, hs0, hit, hw1, hw2⟩ :=
    bstep_iterate_window inc hd hm k sec (2 * dsec - dmaj) (by omega) (by omega)
  refine ⟨s, hs0, ?_, by rw [hit]⟩
  by_contra hgt
  push_neg at hgt
  have hmono : 2 * dsec * (k : ℤ) ≤ 2 * dsec * dmaj :=
    mul_le_mul_of_nonneg_left hk (by omega)
  have hge : 2 * dmaj * (dsec + 1) ≤ 2 * dmaj * s :=
    mul_le_mul_of_nonneg_left (by omega) (by omega)
  nlinarith [hw1]

theorem bstep_iterate_final (inc dmaj dsec : ℤ) (hd : 0 ≤ dsec) (hm : dsec ≤ dmaj)
    (hpos : 0 < dmaj) (sec : ℤ) :
    ((bstep inc dmaj dsec)^[dmaj.toNat] (sec, 2 * dsec - dmaj)).1 = sec + inc * dsec := by
  obtain ⟨s, hs0, hit, hw1, hw2⟩ :=
    bstep_iterate_window inc hd hm dmaj.toNat sec (2 * dsec - dmaj) (by omega) (by omega)
  have hcast : ((dmaj.toNat : ℕ) : ℤ) = dmaj := by omega
  rw [hcast] at hit hw1 hw2
  have hub : s ≤ dsec := by
    by_contra hgt
    push_neg at hgt
    have hge : 2 * dmaj * (dsec + 1) ≤ 2 * dmaj * s :=
      mul_le_mul_of_nonneg_left (by omega) (by omega)
    nlinarith [hw1]
  have hlb : dsec ≤ s := by
    by_contra hlt
    push_neg at hlt
    have hle : 2 * dmaj * s ≤ 2 * dmaj * (dsec - 1) :=
      mul_le_mul_of_nonneg_left (by omega) (by omega)
    nlinarith [hw2]
  have hsb : s = dsec := le_antisymm hub hlb
  rw [hit, hsb]

theorem bstep_iterate_const (inc dmaj : ℤ) (k : ℕ) (sec di : ℤ) (hdi : di ≤ 0) :
    (bstep inc dmaj 0)^[k] (sec, di) = (sec, di) := by
  induction k with
  | zero => simp
  | succ n ih =>
    rw [Function.iterate_succ_apply]
    have hb : bstep inc dmaj 0 (sec, di) = (sec, di) := by
      show (if 0 < di then sec + inc else sec,
        (if 0 < di then di - 2 * dmaj else di) + 2 * 0) = (sec, di)
      rw [if_neg (by omega), if_neg (by omega)]
      simp
    rw [hb, ih]

theorem bstep_iterate_diag (inc dmaj : ℤ) (hpos : 0 < dmaj) (k : ℕ) (sec : ℤ) :
    (bstep inc dmaj dmaj)^[k] (sec, dmaj) = (sec + inc * k, dmaj) := by
  induction k with
  | zero => simp
  | succ n ih =>
    have hb : ∀ t : ℤ, bstep inc dmaj dmaj (t, dmaj) = (t + inc, dmaj) := by
      intro t
      show (if 0 < dmaj then t + inc else t,
        (if 0 < dmaj then dmaj - 2 * dmaj else dmaj) + 2 * dmaj) = (t + inc, dmaj)
      rw [if_pos hpos, if_pos hpos]
      exact congrArg (Prod.mk (t + inc)) (by ring)
    rw [Function.iterate_succ_apply', ih, hb]
    exact congrArg (fun z : ℤ => (z, dmaj)) (by push_cast; ring)

/-! ## Bresenham run lemmas -/

theorem bres_run_length (m0 m1 sec0 ds : ℤ) (a : ℕ) :
    (bres_run m0 m1 sec0 ds a).length = a + 1 := by
  rw [bres_run, bres_loop_length]

theorem bres_run_head? (m0 m1 sec0 ds : ℤ) (a : ℕ) :
    (bres_run m0 m1 sec0 ds a).head? = some (m0, sec0) := by
  rw [bres_run]
  exact bres_loop_head? _ _ _ _ _ _ _ _

theorem bres_run_getLast? (m0 m1 sec0 ds : ℤ) (a : ℕ) (ha : a = (m1 - m0).natAbs)
    (hb : ds.natAbs ≤ a) :
    (bres_run m0 m1 sec0 ds a).getLast? = some (m1, sec0 + ds) := by
  rw [bres_run, bres_loop_getLast?]
  have hmaj : m0 + (if m0 < m1 then (1 : ℤ) else -1) * (a : ℤ) = m1 := by
    split_ifs with h <;> omega
  have hmin : (((bstep (if 0 ≤ ds then (1 : ℤ) else -1) (a : ℤ) (ds.natAbs : ℤ))^[a])
      (sec0, 2 * (ds.natAbs : ℤ) - (a : ℤ))).1 = sec0 + ds := by
    rcases Nat.eq_zero_or_pos a with h0 | hpos
    · subst h0
      have hds : ds = 0 := by omega
      subst hds
      simp
    · have hfin := bstep_iterate_final (if 0 ≤ ds then (1 : ℤ) else -1) ((a : ℕ) : ℤ)
        ((ds.natAbs : ℕ) : ℤ) (by omega) (by omega) (by omega) sec0
      rw [show (((a : ℕ) : ℤ)).toNat = a from by omega] at hfin
      rw [hfin]
      split_ifs with h <;> omega
  rw [hmaj, hmin]

theorem bres_run_mem {q : ℤ × ℤ} {m0 m1 sec0 ds : ℤ} {a : ℕ}
    (ha : a = (m1 - m0).natAbs) (hb : ds.natAbs ≤ a)
    (h : q ∈ bres_run m0 m1 sec0 ds a) :
    min m0 m1 ≤ q.1 ∧ q.1 ≤ max m0 m1 ∧
      min sec0 (sec0 + ds) ≤ q.2 ∧ q.2 ≤ max sec0 (sec0 + ds) := by
  rw [bres_run] at h
  obtain ⟨k, hk, hq⟩ := bres_loop_mem h
  rcases Nat.eq_zero_or_pos a with h0 | hpos
  · subst h0
    have hds : ds = 0 := by omega
    have hk0 : k = 0 := by omega
    subst hds hk0
    simp only [Function.iterate_zero_apply, Nat.cast_zero, mul_zero, add_zero] at hq
    subst hq
    simp only []
    omega
  · obtain ⟨s, hs0, hs1, hval⟩ := bstep_iterate_bounds (if 0 ≤ ds then (1 : ℤ) else -1)
      ((a : ℕ) : ℤ) ((ds.natAbs : ℕ) : ℤ) (by omega) (by omega) (by omega) sec0 k (by omega)
    rw [hval] at hq
    subst hq
    simp only []
    split_ifs with h1 h2 h2 <;> omega

theorem bstep_iterate_singleton_simp (m0 m1 sec0 ds : ℤ) :
    bres_run m0 m1 sec0 ds 0 = [(m0, sec0)] := by
  rw [bres_run, bres_loop_succ]
  rfl

theorem bres_run_mem_iff {m0 m1 sec0 ds : ℤ} {a : ℕ} {q : ℤ × ℤ} :
    q ∈ bres_run m0 m1 sec0 ds a ↔
      ∃ k : ℕ, k ≤ a ∧ q = (m0 + (if m0 < m1 then (1 : ℤ) else -1) * k,
        ((bstep (if 0 ≤ ds then (1 : ℤ) else -1) (a : ℤ) (ds.natAbs : ℤ))^[k]
          (sec0, 2 * (ds.natAbs : ℤ) - (a : ℤ))).1) := by
  rw [bres_run]
  constructor
  · intro h
    obtain ⟨k, hk, hq⟩ := bres_loop_mem h
    exact ⟨k, by omega, hq⟩
  · rintro ⟨k, hk, rfl⟩
    rw [List.mem_iff_getElem?]
    exact ⟨k, bres_loop_getElem? (a + 1) k (by omega) _ _ _ _ _ _ _⟩

/-! ## Line rasterizer lemmas -/

theorem line_length (p0 p1 : ℤ × ℤ) :
    (cgl_line_raster_pixels p0 p1).length =
      max (p1.1 - p0.1).natAbs (p1.2 - p0.2).natAbs + 1 := by
  rw [cgl_line_raster_pixels]
  split_ifs with h
  · rw [bres_run_length]; omega
  · rw [List.length_map, bres_run_length]; omega

theorem line_ne_nil (p0 p1 : ℤ × ℤ) : cgl_line_raster_pixels p0 p1 ≠ [] := by
  intro hcon
  have := line_length p0 p1
  rw [hcon] at this
  simp at this

theorem line_head? (p0 p1 : ℤ × ℤ) :
    (cgl_line_raster_pixels p0 p1).head? = some p0 := by
  rw [cgl_line_raster_pixels]
  split_ifs with h
  · rw [bres_run_head?]
  · rw [List.head?_map, bres_run_head?]
    rfl

theorem line_getLast? (p0 p1 : ℤ × ℤ) :
    (cgl_line_raster_pixels p0 p1).getLast? = some p1 := by
  rw [cgl_line_raster_pixels]
  split_ifs with h
  · rw [bres_run_getLast? _ _ _ _ _ rfl (by omega)]
    have harith : p0.2 + (p1.2 - p0.2) = p1.2 := by ring
    rw [harith]
  · rw [List.getLast?_map, bres_run_getLast? _ _ _ _ _ rfl (by omega)]
    have harith : p0.1 + (p1.1 - p0.1) = p1.1 := by ring
    rw [harith]
    rfl

theorem line_singleton (p0 : ℤ × ℤ) : cgl_line_raster_pixels p0 p0 = [p0] := by
  rw [cgl_line_raster_pixels, if_neg (by omega)]
  have h0 : (p0.2 - p0.2).natAbs = 0 := by omega
  rw [h0, bstep_iterate_singleton_simp]
  rfl

theorem line_chain8 (p0 p1 : ℤ × ℤ) :
    List.Chain' (fun q r : ℤ × ℤ => (r.1 - q.1).natAbs ≤ 1 ∧ (r.2 - q.2).natAbs ≤ 1)
      (cgl_line_raster_pixels p0 p1) := by
  rw [cgl_line_raster_pixels]
  split_ifs with h
  · rw [bres_run]
    refine (bres_loop_chain' _ _ _ _ _ _ _ _).imp ?_
    intro q r hqr
    obtain ⟨h1, h2⟩ := hqr
    constructor
    · split_ifs at h1 <;> omega
    · rcases h2 with h2 | h2
      · omega
      · split_ifs at h2 <;> omega
  · rw [bres_run, List.chain'_map]
    refine (bres_loop_chain' _ _ _ _ _ _ _ _).imp ?_
    intro q r hqr
    obtain ⟨h1, h2⟩ := hqr
    constructor
    · simp only []
      rcases h2 with h2 | h2
      · omega
      · split_ifs at h2 <;> omega
    · simp only []
      split_ifs at h1 <;> omega

theorem line_mem_bbox {p0 p1 q : ℤ × ℤ} (h : q ∈ cgl_line_raster_pixels p0 p1) :
    min p0.1 p1.1 ≤ q.1 ∧ q.1 ≤ max p0.1 p1.1 ∧
      min p0.2 p1.2 ≤ q.2 ∧ q.2 ≤ max p0.2 p1.2 := by
  rw [cgl_line_raster_pixels] at h
  split_ifs at h with hsplit
  · obtain ⟨a1, a2, a3, a4⟩ := bres_run_mem rfl (by omega) h
    omega
  · rw [List.mem_map] at h
    obtain ⟨r, hr, hq⟩ := h
    obtain ⟨a1, a2, a3, a4⟩ := bres_run_mem rfl (by omega) hr
    subst hq
    simp only []
    omega

/-! ## Discrete intermediate value property for step-1 chains -/

theorem list_int_ivt : ∀ (l : List ℤ) (x y z : ℤ), l.head? = some x →
    l.getLast? = some y →
    List.Chain' (fun u v : ℤ => (v - u).natAbs ≤ 1) l →
    min x y ≤ z → z ≤ max x y → z ∈ l := by
  intro l
  induction l with
  | nil => intro x y z hx; simp at hx
  | cons a t ih =>
    intro x y z hx hy hchain hz1 hz2
    rw [List.head?_cons, Option.some.injEq] at hx
    subst hx
    cases t with
    | nil =>
      rw [List.getLast?_singleton, Option.some.injEq] at hy
      subst hy
      have : z = a := by omega
      subst this
      exact List.mem_singleton_self _
    | cons b t2 =>
      rw [List.getLast?_cons_cons] at hy
      have hchain' := List.chain'_cons.mp hchain
      by_cases hza : z = a
      · subst hza
        exact List.mem_cons_self _ _
      · have hstep : (b - a).natAbs ≤ 1 := hchain'.1
        have hmem : z ∈ b :: t2 := by
          refine ih b y z rfl hy hchain'.2 ?_ ?_ <;> omega
        exact List.mem_cons_of_mem a hmem

theorem line_cover_y {p0 p1 : ℤ × ℤ} {y : ℤ} (h1 : min p0.2 p1.2 ≤ y)
    (h2 : y ≤ max p0.2 p1.2) : ∃ r ∈ cgl_line_raster_pixels p0 p1, r.2 = y := by
  have hmem : y ∈ (cgl_line_raster_pixels p0 p1).map Prod.snd := by
    refine list_int_ivt ((cgl_line_raster_pixels p0 p1).map Prod.snd) p0.2 p1.2 y ?_ ?_ ?_ h1 h2
    · rw [List.head?_map, line_head?]
      rfl
    · rw [List.getLast?_map, line_getLast?]
      rfl
    · rw [List.chain'_map]
      exact (line_chain8 p0 p1).imp (fun q r h => h.2)
  rw [List.mem_map] at hmem
  obtain ⟨r, hr, hry⟩ := hmem
  exact ⟨r, hr, hry⟩

theorem headI_eq_of_head? {l : List (ℤ × ℤ)} {x : ℤ × ℤ} (h : l.head? = some x) :
    l.headI = x := by
  cases l with
  | nil => simp at h
  | cons a t =>
    rw [List.head?_cons, Option.some.injEq] at h
    exact h

/-! ## Closed forms: horizontal, vertical and 45-degree runs -/

theorem bres_run_const_mem {m0 m1 sec0 : ℤ} {a : ℕ} {q : ℤ × ℤ}
    (ha : a = (m1 - m0).natAbs) :
    q ∈ bres_run m0 m1 sec0 0 a ↔
      q.2 = sec0 ∧ min m0 m1 ≤ q.1 ∧ q.1 ≤ max m0 m1 := by
  rw [bres_run_mem_iff]
  constructor
  · rintro ⟨k, hk, rfl⟩
    simp only [Int.natAbs_zero, Nat.cast_zero, mul_zero, zero_sub]
    rw [bstep_iterate_const _ _ k sec0 (-(a : ℤ)) (by omega)]
    refine ⟨rfl, ?_, ?_⟩
    · dsimp only
      split_ifs with h1 <;> omega
    · dsimp only
      split_ifs with h1 <;> omega
  · rintro ⟨hq2, hq1a, hq1b⟩
    refine ⟨(q.1 - m0).natAbs, by omega, ?_⟩
    simp only [Int.natAbs_zero, Nat.cast_zero, mul_zero, zero_sub]
    rw [bstep_iterate_const _ _ _ sec0 (-(a : ℤ)) (by omega)]
    rw [Prod.ext_iff]
    dsimp only
    split_ifs with h1 <;> constructor <;> omega

theorem bres_run_diag_mem {m0 m1 sec0 ds : ℤ} {a : ℕ} {q : ℤ × ℤ}
    (ha : a = (m1 - m0).natAbs) (hd : ds.natAbs = a) (hpos : 0 < a) :
    q ∈ bres_run m0 m1 sec0 ds a ↔
      ∃ k : ℕ, k ≤ a ∧
        q = (m0 + (if m0 < m1 then (1 : ℤ) else -1) * k,
             sec0 + (if 0 ≤ ds then (1 : ℤ) else -1) * k) := by
  have hds : ((ds.natAbs : ℕ) : ℤ) = ((a : ℕ) : ℤ) := by omega
  have hdi : 2 * ((a : ℕ) : ℤ) - ((a : ℕ) : ℤ) = ((a : ℕ) : ℤ) := by omega
  rw [bres_run_mem_iff, hds, hdi]
  constructor
  · rintro ⟨k, hk, rfl⟩
    rw [bstep_iterate_diag _ _ (by omega) k sec0]
    exact ⟨k, hk, rfl⟩
  · rintro ⟨k, hk, rfl⟩
    refine ⟨k, hk, ?_⟩
    rw [bstep_iterate_diag _ _ (by omega) k sec0]

theorem line_mem_horiz {p0 p1 : ℤ × ℤ} (h : p0.2 = p1.2) (q : ℤ × ℤ) :
    q ∈ cgl_line_raster_pixels p0 p1 ↔
      q.2 = p0.2 ∧ min p0.1 p1.1 ≤ q.1 ∧ q.1 ≤ max p0.1 p1.1 := by
  by_cases hx : p0.1 = p1.1
  · have hp : p1 = p0 := Prod.ext_iff.mpr ⟨hx.symm, h.symm⟩
    rw [hp, line_singleton, List.mem_singleton, Prod.ext_iff]
    omega
  · rw [cgl_line_raster_pixels, if_pos (by omega)]
    have hds : p1.2 - p0.2 = 0 := by omega
    rw [hds, bres_run_const_mem rfl]

theorem line_mem_vert {p0 p1 : ℤ × ℤ} (h : p0.1 = p1.1) (q : ℤ × ℤ) :
    q ∈ cgl_line_raster_pixels p0 p1 ↔
      q.1 = p0.1 ∧ min p0.2 p1.2 ≤ q.2 ∧ q.2 ≤ max p0.2 p1.2 := by
  rw [cgl_line_raster_pixels, if_neg (by omega)]
  have hds : p1.1 - p0.1 = 0 := by omega
  rw [hds, List.mem_map]
  constructor
  · rintro ⟨r, hr, rfl⟩
    rw [bres_run_const_mem rfl] at hr
    simp only []
    omega
  · rintro ⟨hq1, hq2a, hq2b⟩
    refine ⟨(q.2, q.1), ?_, rfl⟩
    rw [bres_run_const_mem rfl]
    simp only []
    omega

theorem line_mem_diag {p0 p1 : ℤ × ℤ} (hne : p0.1 ≠ p1.1)
    (hd : (p1.1 - p0.1).natAbs = (p1.2 - p0.2).natAbs) (q : ℤ × ℤ) :
    q ∈ cgl_line_raster_pixels p0 p1 ↔
      ∃ k : ℕ, k ≤ (p1.2 - p0.2).natAbs ∧
        q = (p0.1 + (if 0 ≤ p1.1 - p0.1 then (1 : ℤ) else -1) * k,
             p0.2 + (if p0.2 < p1.2 then (1 : ℤ) else -1) * k) := by
  rw [cgl_line_raster_pixels, if_neg (by omega), List.mem_map]
  constructor
  · rintro ⟨r, hr, rfl⟩
    rw [bres_run_diag_mem rfl (by omega) (by omega)] at hr
    obtain ⟨k, hk, rfl⟩ := hr
    exact ⟨k, hk, rfl⟩
  · rintro ⟨k, hk, rfl⟩
    refine ⟨(p0.2 + (if p0.2 < p1.2 then (1 : ℤ) else -1) * k,
      p0.1 + (if 0 ≤ p1.1 - p0.1 then (1 : ℤ) else -1) * k), ?_, rfl⟩
    rw [bres_run_diag_mem rfl (by omega) (by omega)]
    exact ⟨k, hk, rfl⟩

/-! ## Triangle outline lemmas -/

theorem outline_eq (p0 p1 p2 : ℤ × ℤ) :
    cgl_get_triangle_lines_raster_pixels p0 p1 p2 =
      (cgl_line_raster_pixels p0 p1).drop 1 ++ (cgl_line_raster_pixels p1 p2).drop 1 ++
        (cgl_line_raster_pixels p2 p0).drop 1 := rfl

/-! ## Sorting lemmas -/

theorem sort3_sorted (p0 p1 p2 : ℤ × ℤ) :
    (sort3 p0 p1 p2).1.2 ≤ (sort3 p0 p1 p2).2.1.2 ∧
      (sort3 p0 p1 p2).2.1.2 ≤ (sort3 p0 p1 p2).2.2.2 := by
  rw [sort3]
  split_ifs <;> dsimp only <;> exact ⟨by omega, by omega⟩

theorem sort3_mem (p0 p1 p2 : ℤ × ℤ) :
    ((sort3 p0 p1 p2).1 = p0 ∨ (sort3 p0 p1 p2).1 = p1 ∨ (sort3 p0 p1 p2).1 = p2) ∧
      ((sort3 p0 p1 p2).2.1 = p0 ∨ (sort3 p0 p1 p2).2.1 = p1 ∨ (sort3 p0 p1 p2).2.1 = p2) ∧
      ((sort3 p0 p1 p2).2.2 = p0 ∨ (sort3 p0 p1 p2).2.2 = p1 ∨ (sort3 p0 p1 p2).2.2 = p2) := by
  rw [sort3]
  split_ifs <;> dsimp only <;> exact ⟨by tauto, by tauto, by tauto⟩

/-! ## Fill loop lemmas -/

theorem fill_rows_nil (lb lc : List (ℤ × ℤ)) (y : ℤ) : fill_rows lb lc y [] = some [] := rfl

theorem fill_rows_cons (lb lc : List (ℤ × ℤ)) (y : ℤ) (q : ℤ × ℤ)
    (rest : List (ℤ × ℤ)) :
    fill_rows lb lc y (q :: rest) =
      if q.2 = y then fill_rows lb lc y rest
      else
        lb.getLast?.bind (fun lbl =>
          (((if q.2 ≤ lbl.2 then lb else lc).find? (fun r => r.2 == q.2)).bind (fun r =>
            (fill_rows lb lc q.2 rest).map (fun tail =>
              (cgl_fill_int_range q.1 r.1 true).map (fun xv => (xv, q.2)) ++ tail)))) := rfl

theorem fill_rows_isSome {lb lc : List (ℤ × ℤ)} (yA yC : ℤ) {B : ℤ × ℤ}
    (hlast : lb.getLast? = some B)
    (hcovb : ∀ y : ℤ, yA ≤ y → y ≤ B.2 → ∃ r ∈ lb, r.2 = y)
    (hcovc : ∀ y : ℤ, B.2 ≤ y → y ≤ yC → ∃ r ∈ lc, r.2 = y) :
    ∀ (l : List (ℤ × ℤ)) (y0 : ℤ), (∀ p ∈ l, yA ≤ p.2 ∧ p.2 ≤ yC) →
      (fill_rows lb lc y0 l).isSome := by
  intro l
  induction l with
  | nil => intro y0 hbound; rw [fill_rows_nil]; rfl
  | cons q rest ih =>
    intro y0 hbound
    have hbound' : ∀ p ∈ rest, yA ≤ p.2 ∧ p.2 ≤ yC :=
      fun p hp => hbound p (List.mem_cons_of_mem q hp)
    have hyq := hbound q (List.mem_cons_self q rest)
    rw [fill_rows_cons]
    by_cases hq : q.2 = y0
    · rw [if_pos hq]
      exact ih y0 hbound'
    · rw [if_neg hq, hlast, Option.some_bind]
      have hfind : ((if q.2 ≤ B.2 then lb else lc).find? (fun r => r.2 == q.2)).isSome := by
        rw [List.find?_isSome]
        by_cases hle : q.2 ≤ B.2
        · obtain ⟨r, hr, hry⟩ := hcovb q.2 hyq.1 hle
          rw [if_pos hle]
          exact ⟨r, hr, by simp [hry]⟩
        · obtain ⟨r, hr, hry⟩ := hcovc q.2 (by omega) hyq.2
          rw [if_neg hle]
          exact ⟨r, hr, by simp [hry]⟩
      obtain ⟨r', hr'⟩ := Option.isSome_iff_exists.mp hfind
      rw [hr', Option.some_bind, Option.isSome_map']
      exact ih q.2 hbound'

theorem fill_rows_mem {lb lc : List (ℤ × ℤ)} :
    ∀ (l : List (ℤ × ℤ)) (y0 : ℤ) (res : List (ℤ × ℤ)),
      fill_rows lb lc y0 l = some res → ∀ p ∈ res,
      ∃ q ∈ l, ∃ r : ℤ × ℤ, (r ∈ lb ∨ r ∈ lc) ∧ p.2 = q.2 ∧
        min q.1 r.1 ≤ p.1 ∧ p.1 ≤ max q.1 r.1 := by
  intro l
  induction l with
  | nil =>
    intro y0 res hres p hp
    rw [fill_rows_nil] at hres
    rw [Option.some.injEq] at hres
    subst hres
    simp at hp
  | cons q rest ih =>
    intro y0 res hres p hp
    rw [fill_rows_cons] at hres
    by_cases hq : q.2 = y0
    · rw [if_pos hq] at hres
      obtain ⟨q', hq', hrest⟩ := ih y0 res hres p hp
      exact ⟨q', List.mem_cons_of_mem q hq', hrest⟩
    · rw [if_neg hq] at hres
      rcases hlast : lb.getLast? with _ | lbl
      · rw [hlast, Option.none_bind] at hres
        exact absurd hres (by simp)
      rw [hlast, Option.some_bind] at hres
      rcases hfind : (if q.2 ≤ lbl.2 then lb else lc).find? (fun r => r.2 == q.2) with _ | r
      · rw [hfind, Option.none_bind] at hres
        exact absurd hres (by simp)
      rw [hfind, Option.some_bind] at hres
      rcases hrec : fill_rows lb lc q.2 rest with _ | tail
      · rw [hrec] at hres
        exact absurd hres (by simp)
      rw [hrec, Option.map_some'] at hres
      rw [Option.some.injEq] at hres
      subst hres
      have hrmem : r ∈ lb ∨ r ∈ lc := by
        have := List.mem_of_find?_eq_some hfind
        by_cases hle : q.2 ≤ lbl.2
        · rw [if_pos hle] at this; exact Or.inl this
        · rw [if_neg hle] at this; exact Or.inr this
      rw [List.mem_append] at hp
      rcases hp with hp | hp
      · rw [List.mem_map] at hp
        obtain ⟨xv, hxv, rfl⟩ := hp
        have hbet := fill_int_range_between true hxv
        exact ⟨q, List.mem_cons_self q rest, r, hrmem, rfl, by omega, by omega⟩
      · obtain ⟨q', hq', hrest⟩ := ih q.2 tail hrec p hp
        exact ⟨q', List.mem_cons_of_mem q hq', hrest⟩

/-! ## Triangle rasterizer lemmas -/

theorem tri_raster_eq (p0 p1 p2 : ℤ × ℤ) (lines : Bool) :
    cgl_get_triangle_raster_pixels p0 p1 p2 lines =
      (fill_rows (cgl_line_raster_pixels (sort3 p0 p1 p2).1 (sort3 p0 p1 p2).2.1)
        (cgl_line_raster_pixels (sort3 p0 p1 p2).2.1 (sort3 p0 p1 p2).2.2)
        (cgl_line_raster_pixels (sort3 p0 p1 p2).1 (sort3 p0 p1 p2).2.2).headI.2
        (((cgl_line_raster_pixels (sort3 p0 p1 p2).1 (sort3 p0 p1 p2).2.2).drop 1).dropLast)).map
        (fun tri_fill =>
          if lines then
            tri_fill ++
              (cgl_line_raster_pixels (sort3 p0 p1 p2).1 (sort3 p0 p1 p2).2.2).dropLast ++
              (cgl_line_raster_pixels (sort3 p0 p1 p2).1 (sort3 p0 p1 p2).2.1).drop 1 ++
              (cgl_line_raster_pixels (sort3 p0 p1 p2).2.1 (sort3 p0 p1 p2).2.2).drop 1
          else tri_fill) := rfl

theorem tri_raster_isSome (p0 p1 p2 : ℤ × ℤ) (lines : Bool) :
    (cgl_get_triangle_raster_pixels p0 p1 p2 lines).isSome = true := by
  obtain ⟨hy01, hy12⟩ := sort3_sorted p0 p1 p2
  rw [tri_raster_eq, Option.isSome_map']
  refine fill_rows_isSome ((sort3 p0 p1 p2).1.2) ((sort3 p0 p1 p2).2.2.2)
    (line_getLast? _ _) ?_ ?_ _ _ ?_
  · intro y h1 h2
    exact line_cover_y (by omega) (by omega)
  · intro y h1 h2
    exact line_cover_y (by omega) (by omega)
  · intro p hp
    have hp1 : p ∈ (cgl_line_raster_pixels (sort3 p0 p1 p2).1 (sort3 p0 p1 p2).2.2).drop 1 :=
      (List.dropLast_sublist _).subset hp
    have hp2 : p ∈ cgl_line_raster_pixels (sort3 p0 p1 p2).1 (sort3 p0 p1 p2).2.2 :=
      List.mem_of_mem_drop hp1
    have hbox := line_mem_bbox hp2
    omega

theorem outline_mem_bbox {p0 p1 p2 q : ℤ × ℤ}
    (h : q ∈ cgl_get_triangle_lines_raster_pixels p0 p1 p2) :
    min p0.1 (min p1.1 p2.1) ≤ q.1 ∧ q.1 ≤ max p0.1 (max p1.1 p2.1) ∧
      min p0.2 (min p1.2 p2.2) ≤ q.2 ∧ q.2 ≤ max p0.2 (max p1.2 p2.2) := by
  rw [outline_eq, List.mem_append, List.mem_append] at h
  rcases h with (h | h) | h <;>
    · have hbox := line_mem_bbox (List.mem_of_mem_drop h)
      omega

theorem proj_or3 {s p0 p1 p2 : ℤ × ℤ} (h : s = p0 ∨ s = p1 ∨ s = p2) :
    (s.1 = p0.1 ∨ s.1 = p1.1 ∨ s.1 = p2.1) ∧ (s.2 = p0.2 ∨ s.2 = p1.2 ∨ s.2 = p2.2) := by
  rcases h with h | h | h <;> subst h <;> exact ⟨by tauto, by tauto⟩

theorem fill_part_bbox {A B C : ℤ × ℤ} {tri_fill : List (ℤ × ℤ)} {y0 : ℤ}
    (hfill : fill_rows (cgl_line_raster_pixels A B) (cgl_line_raster_pixels B C) y0
      (((cgl_line_raster_pixels A C).drop 1).dropLast) = some tri_fill) :
    ∀ p ∈ tri_fill,
      min A.1 (min B.1 C.1) ≤ p.1 ∧ p.1 ≤ max A.1 (max B.1 C.1) ∧
        min A.2 (min B.2 C.2) ≤ p.2 ∧ p.2 ≤ max A.2 (max B.2 C.2) := by
  intro p hp
  obtain ⟨qa, hqa, r, hr, hpy, hx1, hx2⟩ := fill_rows_mem _ _ _ hfill p hp
  have hqa2 : qa ∈ cgl_line_raster_pixels A C :=
    List.mem_of_mem_drop ((List.dropLast_sublist _).subset hqa)
  have hboxa := line_mem_bbox hqa2
  rcases hr with hr | hr
  · have hboxr := line_mem_bbox hr
    omega
  · have hboxr := line_mem_bbox hr
    omega

theorem min3_le_of_eq3 {a x y z : ℤ} (h : a = x ∨ a = y ∨ a = z) :
    min x (min y z) ≤ a := by
  rcases h with rfl | rfl | rfl
  · exact min_le_left _ _
  · exact le_trans (min_le_right _ _) (min_le_left _ _)
  · exact le_trans (min_le_right _ _) (min_le_right _ _)

theorem le_max3_of_eq3 {a x y z : ℤ} (h : a = x ∨ a = y ∨ a = z) :
    a ≤ max x (max y z) := by
  rcases h with rfl | rfl | rfl
  · exact le_max_left _ _
  · exact le_trans (le_max_left _ _) (le_max_right _ _)
  · exact le_trans (le_max_right _ _) (le_max_right _ _)

theorem tri_fill_mem_bbox {p0 p1 p2 : ℤ × ℤ} {lines : Bool} {l : List (ℤ × ℤ)}
    (h : cgl_get_triangle_raster_pixels p0 p1 p2 lines = some l) {q : ℤ × ℤ} (hq : q ∈ l) :
    min p0.1 (min p1.1 p2.1) ≤ q.1 ∧ q.1 ≤ max p0.1 (max p1.1 p2.1) ∧
      min p0.2 (min p1.2 p2.2) ≤ q.2 ∧ q.2 ≤ max p0.2 (max p1.2 p2.2) := by
  obtain ⟨hm0, hm1, hm2⟩ := sort3_mem p0 p1 p2
  rw [tri_raster_eq, Option.map_eq_some'] at h
  obtain ⟨tri_fill, hfill, rfl⟩ := h
  set A := (sort3 p0 p1 p2).1 with hAdef
  set B := (sort3 p0 p1 p2).2.1 with hBdef
  set C := (sort3 p0 p1 p2).2.2 with hCdef
  clear_value A B C
  clear hAdef hBdef hCdef
  obtain ⟨hs0x, hs0y⟩ := proj_or3 hm0
  obtain ⟨hs1x, hs1y⟩ := proj_or3 hm1
  obtain ⟨hs2x, hs2y⟩ := proj_or3 hm2
  have hA1 := min3_le_of_eq3 hs0x
  have hB1 := min3_le_of_eq3 hs1x
  have hC1 := min3_le_of_eq3 hs2x
  have hA2 := min3_le_of_eq3 hs0y
  have hB2 := min3_le_of_eq3 hs1y
  have hC2 := min3_le_of_eq3 hs2y
  have hA1' := le_max3_of_eq3 hs0x
  have hB1' := le_max3_of_eq3 hs1x
  have hC1' := le_max3_of_eq3 hs2x
  have hA2' := le_max3_of_eq3 hs0y
  have hB2' := le_max3_of_eq3 hs1y
  have hC2' := le_max3_of_eq3 hs2y
  have hfillcase := fill_part_bbox hfill
  rcases lines with _ | _
  · simp only [Bool.false_eq_true, if_false] at hq
    obtain ⟨g1, g2, g3, g4⟩ := hfillcase q hq
    exact ⟨le_trans (le_min hA1 (le_min hB1 hC1)) g1,
      le_trans g2 (max_le hA1' (max_le hB1' hC1')),
      le_trans (le_min hA2 (le_min hB2 hC2)) g3,
      le_trans g4 (max_le hA2' (max_le hB2' hC2'))⟩
  · simp only [if_true] at hq
    rw [List.mem_append, List.mem_append, List.mem_append] at hq
    rcases hq with ((hq | hq) | hq) | hq
    · obtain ⟨g1, g2, g3, g4⟩ := hfillcase q hq
      exact ⟨le_trans (le_min hA1 (le_min hB1 hC1)) g1,
        le_trans g2 (max_le hA1' (max_le hB1' hC1')),
        le_trans (le_min hA2 (le_min hB2 hC2)) g3,
        le_trans g4 (max_le hA2' (max_le hB2' hC2'))⟩
    · obtain ⟨g1, g2, g3, g4⟩ := line_mem_bbox ((List.dropLast_sublist _).subset hq)
      exact ⟨le_trans (le_min hA1 hC1) g1, le_trans g2 (max_le hA1' hC1'),
        le_trans (le_min hA2 hC2) g3, le_trans g4 (max_le hA2' hC2')⟩
    · obtain ⟨g1, g2, g3, g4⟩ := line_mem_bbox (List.mem_of_mem_drop hq)
      exact ⟨le_trans (le_min hA1 hB1) g1, le_trans g2 (max_le hA1' hB1'),
        le_trans (le_min hA2 hB2) g3, le_trans g4 (max_le hA2' hB2')⟩
    · obtain ⟨g1, g2, g3, g4⟩ := line_mem_bbox (List.mem_of_mem_drop hq)
      exact ⟨le_trans (le_min hB1 hC1) g1, le_trans g2 (max_le hB1' hC1'),
        le_trans (le_min hB2 hC2) g3, le_trans g4 (max_le hB2' hC2')⟩

/-! ## UV round-trip helper -/

theorem uv_roundtrip_coord (x w : ℤ) (hw : 1 ≤ w) (hx0 : 0 ≤ x) (hx1 : x ≤ w - 1) :
    round_half_even ((max (min ((x : ℚ) * (1 / (w : ℚ)) + (1 / (w : ℚ)) * (1/2 : ℚ)) 1) 0) *
      ((w : ℚ) - 1)) = x := by
  have hwQ : (0 : ℚ) < (w : ℚ) := by exact_mod_cast (by omega : (0 : ℤ) < w)
  have hw1 : (1 : ℚ) ≤ (w : ℚ) := by exact_mod_cast hw
  have hxQ : (0 : ℚ) ≤ (x : ℚ) := by exact_mod_cast hx0
  have hx1Q : (x : ℚ) ≤ (w : ℚ) - 1 := by
    have hcast : (x : ℚ) ≤ ((w - 1 : ℤ) : ℚ) := by exact_mod_cast hx1
    push_cast at hcast
    linarith
  have hu : (x : ℚ) * (1 / (w : ℚ)) + (1 / (w : ℚ)) * (1/2 : ℚ) = ((x : ℚ) + 1/2) / w := by
    field_simp
    ring
  have hub : ((x : ℚ) + 1/2) / w ≤ 1 := by
    rw [div_le_one hwQ]
    linarith
  have hlb : (0 : ℚ) ≤ ((x : ℚ) + 1/2) / w := div_nonneg (by linarith) (le_of_lt hwQ)
  rw [hu, min_eq_left hub, max_eq_left hlb]
  apply round_half_even_eq_of_close
  · rw [div_mul_eq_mul_div, lt_div_iff₀ hwQ]
    nlinarith
  · rw [div_mul_eq_mul_div, div_lt_iff₀ hwQ]
    nlinarith

/-! ## Claim theorems -/

/-- C1: evaluation of the code at the failing input.  The claim says
`filled_pixels((0,0),(4,0),(0,4), include_outline=false)` fills each interior
row strictly between the matched edge x-coordinates (exclusive), with no pixel
on the three edges, and that the row at y=1 is exactly {(1,1),(2,1)}.  The
code instead calls `cgl_fill_int_range` with its default `ends=True`
(inclusive), so the row at y=1 is [(0,1),(1,1),(2,1),(3,1)], including the
edge pixels (0,1) and (3,1) — contradicting the claim and the function's own
docstring, which promises the filled area "without contours". -/
theorem claim_C1 :
    cgl_get_triangle_raster_pixels (0, 0) (4, 0) (0, 4) false =
      some [(0, 1), (1, 1), (2, 1), (3, 1), (0, 2), (1, 2), (2, 2), (0, 3), (1, 3)] := by
  decide

/-- C2 counterexample: for the triangle (0,0),(4,0),(0,4), the outline is NOT
the full first edge followed by the tails of the other two: the code drops the
leading pixel of all three edges (`[1:]` is applied inside the loop for every
`i in range(3)`), so the first edge also loses its first pixel. -/
theorem claim_C2_counterexample :
    cgl_get_triangle_lines_raster_pixels (0, 0) (4, 0) (0, 4) ≠
      cgl_line_raster_pixels (0, 0) (4, 0) ++
        (cgl_line_raster_pixels (4, 0) (0, 4)).drop 1 ++
        (cgl_line_raster_pixels (0, 4) (0, 0)).drop 1 := by
  decide

/-- C2 amended: `outline_pixels(p0, p1, p2)` equals the concatenation of the
three rasterized edges p0→p1, p1→p2, p2→p0 with the leading pixel of EVERY
edge (including the first) dropped; each dropped vertex is still covered,
as the last pixel of the preceding edge (p0 by the third edge). -/
theorem claim_C2_amended (p0 p1 p2 : ℤ × ℤ) :
    cgl_get_triangle_lines_raster_pixels p0 p1 p2 =
      (cgl_line_raster_pixels p0 p1).drop 1 ++ (cgl_line_raster_pixels p1 p2).drop 1 ++
        (cgl_line_raster_pixels p2 p0).drop 1 :=
  outline_eq p0 p1 p2

/-- C3: for all integer points p0, p1, `line_pixels(p0, p1)` has length
exactly `max(|dx|, |dy|) + 1`, starts at p0, ends at p1, consecutive points
differ by at most 1 in each axis (8-connectivity), and the zero-length input
yields the single-point sequence [p0]. -/
theorem claim_C3 (p0 p1 : ℤ × ℤ) :
    (cgl_line_raster_pixels p0 p1).length =
        max (p1.1 - p0.1).natAbs (p1.2 - p0.2).natAbs + 1 ∧
      (cgl_line_raster_pixels p0 p1).head? = some p0 ∧
      (cgl_line_raster_pixels p0 p1).getLast? = some p1 ∧
      List.Chain' (fun q r : ℤ × ℤ => (r.1 - q.1).natAbs ≤ 1 ∧ (r.2 - q.2).natAbs ≤ 1)
        (cgl_line_raster_pixels p0 p1) ∧
      cgl_line_raster_pixels p0 p0 = [p0] :=
  ⟨line_length p0 p1, line_head? p0 p1, line_getLast? p0 p1, line_chain8 p0 p1,
    line_singleton p0⟩

/-- C4 counterexample: the UV conversion functions do NOT reject non-positive
dimensions.  `cgl_get_pixel_from_uv` performs no validation at all and
silently returns (0, 0) for a 0×0 grid, and `cgl_get_pixel_uv` silently
returns a value for negative dimensions (only `w = 0` or `h = 0` raises,
via the division `1.0 / w`). -/
theorem claim_C4_counterexample :
    cgl_get_pixel_from_uv (1/2) (1/2) 0 0 = (0, 0) ∧
      cgl_get_pixel_uv 0 0 (-2) (-2) = some (-(1/4 : ℚ), -(1/4 : ℚ)) := by
  constructor
  · norm_num [cgl_get_pixel_from_uv, round_half_even]
  · norm_num [cgl_get_pixel_uv]

/-- C4 amended: `cgl_get_pixel_uv` fails (ZeroDivisionError, modelled as
`none`) precisely when the width or the height is zero; every other dimension,
negative ones included, silently yields a value, and `cgl_get_pixel_from_uv`
is total and never rejects its dimensions. -/
theorem claim_C4_amended (x y w h : ℤ) :
    cgl_get_pixel_uv x y w h = none ↔ w = 0 ∨ h = 0 := by
  rw [cgl_get_pixel_uv]
  split_ifs with h1 h2
  · simpa using Or.inl h1
  · simpa using Or.inr h2
  · simp [h1, h2]

/-- C5 counterexample: the reversal of `line_pixels(p0, p1)` does NOT equal
`line_pixels(p1, p0)` as a set of points in general: for p0 = (0,0),
p1 = (4,1) the forward raster contains (2,0) while the backward raster
contains (2,1) instead. -/
theorem claim_C5_counterexample :
    ((2 : ℤ), (0 : ℤ)) ∈ (cgl_line_raster_pixels (0, 0) (4, 1)).reverse ∧
      ((2 : ℤ), (0 : ℤ)) ∉ cgl_line_raster_pixels (4, 1) (0, 0) := by
  constructor
  · decide
  · decide

/-- C5 amended: the reversal of `line_pixels(p0, p1)` equals
`line_pixels(p1, p0)` as a set of points whenever the segment is vertical,
horizontal, or an exact diagonal (`|dx| = |dy|`, which covers the
degenerate/symmetric cases singled out by the spec); for other slopes the two
point sets can differ. -/
theorem claim_C5_amended (p0 p1 : ℤ × ℤ)
    (hsym : p0.1 = p1.1 ∨ p0.2 = p1.2 ∨ (p1.1 - p0.1).natAbs = (p1.2 - p0.2).natAbs)
    (q : ℤ × ℤ) :
    (q ∈ (cgl_line_raster_pixels p0 p1).reverse ↔ q ∈ cgl_line_raster_pixels p1 p0) := by
  rw [List.mem_reverse]
  rcases hsym with hv | hh | hd
  · rw [line_mem_vert hv q, line_mem_vert hv.symm q]
    omega
  · rw [line_mem_horiz hh q, line_mem_horiz hh.symm q]
    omega
  · by_cases hne : p0.1 = p1.1
    · rw [line_mem_vert hne q, line_mem_vert hne.symm q]
      omega
    · rw [line_mem_diag hne hd q,
        line_mem_diag (fun hcon => hne hcon.symm) (by omega) q]
      constructor
      · rintro ⟨k, hk, rfl⟩
        refine ⟨(p1.2 - p0.2).natAbs - k, by omega, ?_⟩
        rw [Prod.ext_iff]
        dsimp only
        constructor
        · split_ifs <;> omega
        · split_ifs <;> omega
      · rintro ⟨k, hk, rfl⟩
        refine ⟨(p1.2 - p0.2).natAbs - k, by omega, ?_⟩
        rw [Prod.ext_iff]
        dsimp only
        constructor
        · split_ifs <;> omega
        · split_ifs <;> omega

/-- C5 witness: the amended symmetry instantiated on the diagonal from (0,0)
to (2,2) at the pixel (1,1). -/
theorem claim_C5_witness :
    (((1 : ℤ), (1 : ℤ)) ∈ (cgl_line_raster_pixels (0, 0) (2, 2)).reverse ↔
      ((1 : ℤ), (1 : ℤ)) ∈ cgl_line_raster_pixels (2, 2) (0, 0)) :=
  claim_C5_amended (0, 0) (2, 2) (Or.inr (Or.inr (by decide))) (1, 1)

/-- C6: every pixel of `line_pixels` lies in the closed bounding box of its
two endpoints, and every pixel of `outline_pixels` or of `filled_pixels`
(with or without outline) lies in the closed bounding box of the three
triangle vertices. -/
theorem claim_C6 :
    (∀ (p0 p1 q : ℤ × ℤ), q ∈ cgl_line_raster_pixels p0 p1 →
      min p0.1 p1.1 ≤ q.1 ∧ q.1 ≤ max p0.1 p1.1 ∧
        min p0.2 p1.2 ≤ q.2 ∧ q.2 ≤ max p0.2 p1.2) ∧
    (∀ (p0 p1 p2 q : ℤ × ℤ), q ∈ cgl_get_triangle_lines_raster_pixels p0 p1 p2 →
      min p0.1 (min p1.1 p2.1) ≤ q.1 ∧ q.1 ≤ max p0.1 (max p1.1 p2.1) ∧
        min p0.2 (min p1.2 p2.2) ≤ q.2 ∧ q.2 ≤ max p0.2 (max p1.2 p2.2)) ∧
    (∀ (p0 p1 p2 : ℤ × ℤ) (lines : Bool) (l : List (ℤ × ℤ)),
      cgl_get_triangle_raster_pixels p0 p1 p2 lines = some l → ∀ q ∈ l,
      min p0.1 (min p1.1 p2.1) ≤ q.1 ∧ q.1 ≤ max p0.1 (max p1.1 p2.1) ∧
        min p0.2 (min p1.2 p2.2) ≤ q.2 ∧ q.2 ≤ max p0.2 (max p1.2 p2.2)) :=
  ⟨fun _ _ _ hq => line_mem_bbox hq,
   fun _ _ _ _ hq => outline_mem_bbox hq,
   fun _ _ _ _ _ hl _ hq => tri_fill_mem_bbox hl hq⟩

/-- C6 witness: the bounding-box bounds instantiated at a pixel of the line
(0,0)–(4,1), a pixel of the outline of the triangle (0,0),(4,0),(0,4), and a
pixel of its fill. -/
theorem claim_C6_witness :
    (min (0 : ℤ) 4 ≤ 2 ∧ (2 : ℤ) ≤ max (0 : ℤ) 4 ∧
        min (0 : ℤ) 1 ≤ 0 ∧ (0 : ℤ) ≤ max (0 : ℤ) 1) ∧
    (min (0 : ℤ) (min 4 0) ≤ 1 ∧ (1 : ℤ) ≤ max (0 : ℤ) (max 4 0) ∧
        min (0 : ℤ) (min 0 4) ≤ 0 ∧ (0 : ℤ) ≤ max (0 : ℤ) (max 0 4)) ∧
    (min (0 : ℤ) (min 4 0) ≤ 1 ∧ (1 : ℤ) ≤ max (0 : ℤ) (max 4 0) ∧
        min (0 : ℤ) (min 0 4) ≤ 1 ∧ (1 : ℤ) ≤ max (0 : ℤ) (max 0 4)) :=
  ⟨claim_C6.1 (0, 0) (4, 1) (2, 0) (by decide),
   claim_C6.2.1 (0, 0) (4, 0) (0, 4) (1, 0) (by decide),
   claim_C6.2.2 (0, 0) (4, 0) (0, 4) false
     [(0, 1), (1, 1), (2, 1), (3, 1), (0, 2), (1, 2), (2, 2), (0, 3), (1, 3)]
     (by decide) (1, 1) (by decide)⟩

/-- C7: for every grid with width and height at least 1 and every pixel (x, y)
inside it, converting the pixel to the UV coordinates of its center and back
recovers (x, y) exactly (floats modelled as exact rationals). -/
theorem claim_C7 (w h x y : ℤ) (hw : 1 ≤ w) (hh : 1 ≤ h) (hx0 : 0 ≤ x)
    (hx1 : x ≤ w - 1) (hy0 : 0 ≤ y) (hy1 : y ≤ h - 1) :
    (cgl_get_pixel_uv x y w h).map (fun uv => cgl_get_pixel_from_uv uv.1 uv.2 w h) =
      some (x, y) := by
  have hw0 : ¬ w = 0 := by omega
  have hh0 : ¬ h = 0 := by omega
  have hclx : max (min x (w - 1)) 0 = x := by omega
  have hcly : max (min y (h - 1)) 0 = y := by omega
  simp only [cgl_get_pixel_uv, if_neg hw0, if_neg hh0, hclx, hcly, Option.map_some']
  rw [Option.some.injEq]
  simp only [cgl_get_pixel_from_uv]
  rw [Prod.mk.injEq]
  exact ⟨uv_roundtrip_coord x w hw hx0 hx1, uv_roundtrip_coord y h hh hy0 hy1⟩

/-- C7 witness: the round trip instantiated on the 4×3 grid at pixel (2, 1). -/
theorem claim_C7_witness :
    (cgl_get_pixel_uv 2 1 4 3).map (fun uv => cgl_get_pixel_from_uv uv.1 uv.2 4 3) =
      some (2, 1) :=
  claim_C7 4 3 2 1 (by norm_num) (by norm_num) (by norm_num) (by norm_num)
    (by norm_num) (by norm_num)

/-- C8: the triangle rasterizers never raise for any vertices: the fill never
hits a failed lookup (`isSome` always holds, `none` modelling an exception);
for the fully degenerate triangle (0,0),(0,0),(0,0) the fill is empty (with
and without outline) and the outline is the empty sequence (length 0, a small
constant). -/
theorem claim_C8 :
    (∀ (p0 p1 p2 : ℤ × ℤ) (lines : Bool),
      (cgl_get_triangle_raster_pixels p0 p1 p2 lines).isSome = true) ∧
    cgl_get_triangle_raster_pixels (0, 0) (0, 0) (0, 0) false = some [] ∧
    cgl_get_triangle_raster_pixels (0, 0) (0, 0) (0, 0) true = some [] ∧
    cgl_get_triangle_lines_raster_pixels (0, 0) (0, 0) (0, 0) = [] ∧
    (cgl_get_triangle_lines_raster_pixels (0, 0) (0, 0) (0, 0)).length ≤ 1 :=
  ⟨tri_raster_isSome, by decide, by decide, by decide, by decide⟩

/-- C9: `cgl_fill_int_range` yields exactly the integers strictly between the
bounds (flag false) or including both bounds (flag true, when they differ),
ordered in the direction from `begin` to `end`, and the empty sequence when
the bounds coincide regardless of the flag; with the three concrete examples
of the spec. -/
theorem claim_C9 :
    (∀ b e : ℤ,
      (∀ ends : Bool, cgl_fill_int_range b b ends = []) ∧
      (∀ z : ℤ, z ∈ cgl_fill_int_range b e true ↔ b ≠ e ∧ min b e ≤ z ∧ z ≤ max b e) ∧
      (∀ z : ℤ, z ∈ cgl_fill_int_range b e false ↔ min b e < z ∧ z < max b e) ∧
      (b < e → ∀ ends : Bool, List.Chain' (· < ·) (cgl_fill_int_range b e ends)) ∧
      (e < b → ∀ ends : Bool,
        List.Chain' (fun u v : ℤ => v < u) (cgl_fill_int_range b e ends))) ∧
    cgl_fill_int_range 5 5 true = [] ∧
    cgl_fill_int_range 1 5 false = [2, 3, 4] ∧
    cgl_fill_int_range 5 1 true = [5, 4, 3, 2, 1] := by
  refine ⟨fun b e => ⟨fun ends => fill_int_range_eq_of_eq b ends,
    fun z => mem_fill_int_range_true, fun z => mem_fill_int_range_false,
    fun hlt ends => fill_int_range_chain_asc hlt ends,
    fun hlt ends => fill_int_range_chain_desc hlt ends⟩, ?_, ?_, ?_⟩
  · decide
  · decide
  · decide

/-- C9 witness: the direction-of-travel orderings instantiated on the
ascending range 1→5 and the descending range 5→1. -/
theorem claim_C9_witness :
    List.Chain' (· < ·) (cgl_fill_int_range 1 5 true) ∧
      List.Chain' (fun u v : ℤ => v < u) (cgl_fill_int_range 5 1 false) :=
  ⟨(claim_C9.1 1 5).2.2.2.1 (by decide) true, (claim_C9.1 5 1).2.2.2.2 (by decide) false⟩

/-- C10: the unspecified rounding mode of `cgl_get_pixel_from_uv` is
round-half-to-even (Python's `round`): on an exact half-integer the result is
the nearest even integer, so the pixel for UV (0.5, 0.5) on a 2×2 grid is
(0, 0) (0.5 rounds down to 0) while on a 4×4 grid it is (2, 2) (1.5 rounds up
to 2); all computations are exactly representable. -/
theorem claim_C10 :
    (∀ n : ℤ, round_half_even ((n : ℚ) + 1/2) = if n % 2 = 0 then n else n + 1) ∧
    cgl_get_pixel_from_uv (1/2) (1/2) 2 2 = (0, 0) ∧
    cgl_get_pixel_from_uv (1/2) (1/2) 4 4 = (2, 2) := by
  refine ⟨?_, ?_, ?_⟩
  · intro n
    have hfl : ⌊(n : ℚ) + 1/2⌋ = n := by
      rw [add_comm, Int.floor_add_int]
      norm_num
    simp only [round_half_even, hfl]
    have hr : ((n : ℚ) + 1/2) - (n : ℚ) = 1/2 := by ring
    rw [hr]
    norm_num
  · norm_num [cgl_get_pixel_from_uv, round_half_even]
  · norm_num [cgl_get_pixel_from_uv, round_half_even]
